import Mathlib

/-!
Shallow embedding of `src/main.rs` of the japanese_word_srs repository.

Modelling conventions:
* Rust `f32`/`f64` arithmetic is embedded exactly over `ℚ` (the SM-2 formula,
  sentence costs); `u32`/`i64` counters are `ℕ`/`ℤ`.
* The SQLite database is embedded as a `Store` of row lists; SQL queries are
  translated query-by-query.  A `query_row ... LIMIT 1` / first matching row is
  `List.find?`; `ORDER BY k ASC LIMIT 1` is a first-minimum fold.
* Paths on which the Rust code panics via `.expect`/`.unwrap` on a missing row
  are modelled as `none` results; the claims only speak about stores in which
  the relevant rows exist.
* Timestamps (stored as TEXT and compared by SQLite `<`) are embedded as an
  abstract linearly ordered instant type `ℤ`; `Utc::now() + days(d)` becomes
  `now + d`.
-/

/-- Embeds struct `SuperMemoItem` (src/main.rs lines 8-12); `e_factor : f32`
is modelled exactly as a rational. -/
structure SuperMemoItem where
  repitition : ℕ
  duration : ℕ
  e_factor : ℚ
deriving DecidableEq

/-- Embeds `super_memo_2` (src/main.rs lines 14-40): the SM-2 update.
A quality response below 3 resets the repetition to 0 before the transition
table is consulted; the `≥ 2` arm clamps the new ease factor at 1.3 from
below and the new duration is `ceil(duration * e_factor)` cast to `u32`
(modelled as `Int.toNat` of the ceiling, which is nonnegative here). -/
def super_memo_2 (item : SuperMemoItem) (response_quality : ℚ) : SuperMemoItem :=
  let repitition := if response_quality < 3 then 0 else item.repitition
  match repitition with
  | 0 => ⟨1, 1, item.e_factor⟩
  | 1 => ⟨2, 6, item.e_factor⟩
  | r + 2 =>
    let e_factor :=
      max (item.e_factor + (0.1 - (5 - response_quality) * (0.08 + (5 - response_quality) * 0.02))) 1.3
    let duration := (⌈(item.duration : ℚ) * e_factor⌉).toNat
    ⟨(r + 2) + 1, duration, e_factor⟩

/-- Embeds the `terminators` set of `iterate_sentences` (src/main.rs line 70). -/
def terminators : List Char := ['。', '\n', '！', '？']

/-- Embeds the `open_quotes` set of `iterate_sentences` (src/main.rs line 71). -/
def open_quotes : List Char := ['「']

/-- Embeds the `close_quotes` set of `iterate_sentences` (src/main.rs line 72). -/
def close_quotes : List Char := ['」']

/-- Rust `char::is_whitespace`: the Unicode White_Space property, used by
`str::trim` inside `iterate_sentences`. -/
def isRustWhitespace (c : Char) : Bool :=
  ['\t', '\n', '\u000B', '\u000C', '\r', ' ', '\u0085', '\u00A0', '\u1680',
   '\u2000', '\u2001', '\u2002', '\u2003', '\u2004', '\u2005', '\u2006',
   '\u2007', '\u2008', '\u2009', '\u200A', '\u2028', '\u2029', '\u202F',
   '\u205F', '\u3000'].contains c

/-- Rust `str::trim`, on the character-list view of a string: strip leading and
trailing whitespace. -/
def trim (s : List Char) : List Char :=
  ((s.dropWhile isRustWhitespace).reverse.dropWhile isRustWhitespace).reverse

/-- Loop state of `iterate_sentences` (src/main.rs lines 74-75) together with
the sentences emitted to the callback so far (`out`). -/
structure SplitState where
  depth : ℤ
  cur : List Char
  out : List (List Char)
deriving DecidableEq

/-- One iteration of the character loop of `iterate_sentences`
(src/main.rs lines 76-94): push the character, then adjust the quote depth or,
at depth 0 on a terminator, emit the trimmed current string if nonempty. -/
def splitStep (st : SplitState) (c : Char) : SplitState :=
  let cur := st.cur ++ [c]
  if open_quotes.contains c then
    { st with cur := cur, depth := st.depth + 1 }
  else if close_quotes.contains c then
    { st with cur := cur, depth := st.depth - 1 }
  else if st.depth = 0 ∧ terminators.contains c then
    let sentence := trim cur
    let out := if sentence.isEmpty then st.out else st.out ++ [sentence]
    { st with cur := [], out := out }
  else
    { st with cur := cur }

/-- Embeds `iterate_sentences` (src/main.rs lines 67-95), with the callback
replaced by collecting the emitted sentences in order; the text left in
`cur_string` when the loop ends is dropped, as in the source. -/
def iterate_sentences (text : List Char) : List (List Char) :=
  (text.foldl splitStep ⟨0, [], []⟩).out

/-- Row of the `words` table (src/main.rs lines 122-137).  Column defaults
follow the schema: `count` 1, `reviewed` 0 (false), `next_review_at` NULL,
`review_duration` 0, `e_factor` 0, `repitition` 0.  `REAL` is modelled
exactly as `ℚ` and the TEXT timestamp as an abstract instant `ℤ`. -/
structure WordRow where
  id : ℤ
  text : String
  count : ℤ
  frequency : ℤ
  reviewed : Bool
  next_review_at : Option ℤ
  review_duration : ℕ
  e_factor : ℚ
  repitition : ℕ
deriving DecidableEq

/-- Row of the `sentences` table (src/main.rs lines 114-119). -/
structure SentenceRow where
  id : ℤ
  text : String
deriving DecidableEq

/-- The SQLite database of `KnowledgeDB`: the three tables, plus the
AUTOINCREMENT counters that supply fresh row ids.  Row lists are kept in
insertion order, which models SQLite's default scan order. -/
structure Store where
  sentences : List SentenceRow
  words : List WordRow
  word_sentence : List (ℤ × ℤ)
  next_sentence_id : ℤ
  next_word_id : ℤ
deriving DecidableEq

/-- The query `SELECT ... FROM words WHERE text = ?` used throughout
`KnowledgeDB`: first row whose `text` matches. -/
def findWordByText (st : Store) (w : String) : Option WordRow :=
  st.words.find? (fun r => r.text = w)

/-- Body of the per-word loop of `add_sentence` (src/main.rs lines 182-204):
upsert the word row (`INSERT ... ON CONFLICT(text) DO UPDATE SET
count=count+1`), look the word id up by text, and `INSERT OR IGNORE` the
membership edge to the sentence. -/
def addWordAndLink (freq : String → ℤ) (st : Store) (sentence_id : ℤ) (w : String) : Store :=
  match findWordByText st w with
  | some r =>
    let words := st.words.map (fun x => if x.text = w then { x with count := x.count + 1 } else x)
    let link := (r.id, sentence_id)
    let word_sentence :=
      if st.word_sentence.contains link then st.word_sentence else st.word_sentence ++ [link]
    { st with words := words, word_sentence := word_sentence }
  | none =>
    let row : WordRow := ⟨st.next_word_id, w, 1, freq w, false, none, 0, 0, 0⟩
    let link := (st.next_word_id, sentence_id)
    let word_sentence :=
      if st.word_sentence.contains link then st.word_sentence else st.word_sentence ++ [link]
    { st with
      words := st.words ++ [row]
      word_sentence := word_sentence
      next_word_id := st.next_word_id + 1 }

/-- Embeds `KnowledgeDB::add_sentence` (src/main.rs lines 160-207).  The
tokenizer is an external collaborator, so the word list extracted from the
sentence is a parameter, as is the frequency oracle `freq`.  `INSERT OR
IGNORE INTO sentences` succeeds (returns 1) exactly when no row with the
same text exists (UNIQUE(text)); only then are the words processed, against
the fresh `last_insert_rowid`. -/
def add_sentence (freq : String → ℤ) (st : Store) (sentence : String) (words : List String) : Store :=
  if st.sentences.any (fun r => r.text = sentence) then st
  else
    let sentence_id := st.next_sentence_id
    let st1 := { st with
                 sentences := st.sentences ++ [⟨sentence_id, sentence⟩]
                 next_sentence_id := sentence_id + 1 }
    words.foldl (fun acc w => addWordAndLink freq acc sentence_id w) st1

/-- Embeds `KnowledgeDB::review_word` (src/main.rs lines 241-281): look the
word up by text; on success run `super_memo_2` and UPDATE the row's
scheduling fields (`next_review_at := now + duration` days, `reviewed :=
true`); on failure print the error and leave the database alone.  The
returned flag is `true` on the success path and `false` on the reported
word-not-found path. -/
def review_word (st : Store) (word : String) (response_quality : ℚ) (now : ℤ) : Store × Bool :=
  match findWordByText st word with
  | some r =>
    let sm := super_memo_2 ⟨r.repitition, r.review_duration, r.e_factor⟩ response_quality
    let next_review_time := now + (sm.duration : ℤ)
    let words := st.words.map (fun x =>
      if x.id = r.id then
        { x with
          repitition := sm.repitition
          e_factor := sm.e_factor
          review_duration := sm.duration
          next_review_at := some next_review_time
          reviewed := true }
      else x)
    ({ st with words := words }, true)
  | none => (st, false)

/-- The query of src/main.rs lines 292-303: ids of the sentences linked to
the given word id through `word_sentence`, in table order. -/
def sentenceIdsForWord (st : Store) (word_id : ℤ) : List ℤ :=
  (st.word_sentence.filter (fun e => e.1 = word_id)).map (fun e => e.2)

/-- Cost loop of `get_sentence_to_review` (src/main.rs lines 311-335): join
the edges of the sentence with `words` (an INNER JOIN drops edges whose word
row is missing), and sum the frequencies of all joined words other than the
word under review. -/
def sentenceCost (st : Store) (review_word_id : ℤ) (sentence_id : ℤ) : ℤ :=
  ((((st.word_sentence.filter (fun e => e.2 = sentence_id)).filterMap (fun e =>
      (st.words.find? (fun r => r.id = e.1)).map (fun r => (e.1, r.frequency)))).filter
    (fun p => p.1 ≠ review_word_id)).map (fun p => p.2)).sum

/-- Fittest-sentence fold of `get_sentence_to_review` (src/main.rs lines
306-350): keep the first sentence whose cost is strictly smaller than the
stored one, so ties keep the earlier candidate. -/
def pickFittest (cost : ℤ → ℤ) (sids : List ℤ) : Option (ℤ × ℤ) :=
  sids.foldl (fun fittest sentence_id =>
    let total := cost sentence_id
    match fittest with
    | some (_, c) => if total < c then some (sentence_id, total) else fittest
    | none => some (sentence_id, total)) none

/-- Embeds `KnowledgeDB::get_sentence_to_review` (src/main.rs lines 283-364):
find the word id (the source `.expect`s it, modelled as `none`), fold over
the linked sentences keeping the first of minimal cost, and return the
winner's text. -/
def get_sentence_to_review (st : Store) (word : String) : Option String :=
  match findWordByText st word with
  | none => none
  | some r =>
    let sids := sentenceIdsForWord st r.id
    match pickFittest (sentenceCost st r.id) sids with
    | some (sid, _) => (st.sentences.find? (fun s => s.id = sid)).map (fun s => s.text)
    | none => none

/-- An SQL `ORDER BY key ASC LIMIT 1`: the first row attaining the minimal
key, in table order. -/
def selectMinBy {α : Type} (key : α → ℤ) (rows : List α) : Option α :=
  rows.foldl (fun acc x =>
    match acc with
    | none => some x
    | some b => if key x < key b then some x else acc) none

/-- Embeds `KnowledgeDB::get_word_to_review` (src/main.rs lines 366-402).
First query: rows with `reviewed = TRUE AND next_review_at < now`, ordered by
`next_review_at` ascending (a NULL `next_review_at` fails the comparison).
If none, second query: rows with `reviewed = FALSE` ordered by `frequency`
ascending.  Returns the text of the picked row, if any. -/
def get_word_to_review (st : Store) (now : ℤ) : Option String :=
  let due := st.words.filter (fun w =>
    w.reviewed && (match w.next_review_at with | some t => decide (t < now) | none => false))
  match selectMinBy (fun w => w.next_review_at.getD 0) due with
  | some w => some w.text
  | none =>
    match selectMinBy (fun w => w.frequency) (st.words.filter (fun w => w.reviewed = false)) with
    | some w => some w.text
    | none => none

/-- Embeds `WordFrequencyList::new` (src/main.rs lines 46-57) parametrically
in the bundled word-list file: the HashMap built by inserting each line with
its zero-based index (a later duplicate line overwrites an earlier one, as
`HashMap::insert` does). -/
def build_word_freq (lines : List String) : String → Option ℤ :=
  lines.enum.foldl (fun m p => fun w => if w = p.2 then some (p.1 : ℤ) else m w)
    (fun _ => none)

/-- Sentinel frequency for words absent from the list: `i64::MAX`
(src/main.rs line 62). -/
def i64Max : ℤ := 2 ^ 63 - 1

/-- Embeds `WordFrequencyList::get_word_freq` (src/main.rs lines 59-64). -/
def get_word_freq (lines : List String) (word : String) : ℤ :=
  match build_word_freq lines word with
  | some freq => freq
  | none => i64Max

/-- The ease factor a `super_memo_2` step produces is at least 1.3 whenever
the incoming one is: the first two arms keep it, the third clamps at 1.3. -/
theorem sm2_e_factor_floor (item : SuperMemoItem) (q : ℚ) (h : 1.3 ≤ item.e_factor) :
    1.3 ≤ (super_memo_2 item q).e_factor := by
  obtain ⟨rep, dur, e⟩ := item
  by_cases hq : q < 3
  · simpa [super_memo_2, hq] using h
  · rcases rep with _ | _ | k
    · simpa [super_memo_2, hq] using h
    · simpa [super_memo_2, hq] using h
    · simp only [super_memo_2, hq, if_false]
      exact le_max_right _ _

/-- Folding `super_memo_2` over any rating sequence keeps the 1.3 floor. -/
theorem sm2_foldl_e_factor_floor (qs : List ℚ) (item : SuperMemoItem)
    (h : 1.3 ≤ item.e_factor) : 1.3 ≤ (qs.foldl super_memo_2 item).e_factor := by
  induction qs generalizing item with
  | nil => exact h
  | cons q qs ih => exact ih _ (sm2_e_factor_floor item q h)

/-- C1: for every state (r, d, e) and quality q ∈ [0, 5], `super_memo_2`
returns (1, 1, e) on a lapse (q < 3) or at repetition 0; (2, 6, e) at
repetition 1; and at repetition ≥ 2 the ease factor becomes
max(1.3, e + 0.1 − (5−q)(0.08 + (5−q)·0.02)), the duration
ceil(d · e'), and the repetition r + 1. -/
theorem scheduler_update_transition_table (r d : ℕ) (e q : ℚ)
    (hq0 : 0 ≤ q) (hq5 : q ≤ 5) :
    (q < 3 ∨ r = 0 → super_memo_2 ⟨r, d, e⟩ q = ⟨1, 1, e⟩) ∧
    (¬ q < 3 → r = 1 → super_memo_2 ⟨r, d, e⟩ q = ⟨2, 6, e⟩) ∧
    (¬ q < 3 → 2 ≤ r →
      super_memo_2 ⟨r, d, e⟩ q =
        ⟨r + 1,
          (⌈(d : ℚ) * max 1.3 (e + 0.1 - (5 - q) * (0.08 + (5 - q) * 0.02))⌉).toNat,
          max 1.3 (e + 0.1 - (5 - q) * (0.08 + (5 - q) * 0.02))⟩) := by
  have hE : e + (0.1 - (5 - q) * (0.08 + (5 - q) * 0.02)) =
      e + 0.1 - (5 - q) * (0.08 + (5 - q) * 0.02) := by ring
  refine ⟨?_, ?_, ?_⟩
  · rintro (hq | rfl)
    · simp [super_memo_2, hq]
    · by_cases hq : q < 3 <;> simp [super_memo_2, hq]
  · rintro hq rfl
    simp [super_memo_2, hq]
  · intro hq hr
    obtain ⟨k, rfl⟩ : ∃ k, r = k + 2 := ⟨r - 2, by omega⟩
    simp only [super_memo_2, hq, if_false]
    rw [hE, max_comm]

/-- Witness for `scheduler_update_transition_table`: the spec's test vectors
(0, 0, 2.5) with q = 4, (1, 6, 2.5) with q = 4, and a lapse q = 2 at
repetition 7. -/
theorem scheduler_update_transition_table_eval :
    super_memo_2 ⟨0, 0, 5/2⟩ 4 = ⟨1, 1, 5/2⟩ ∧
    super_memo_2 ⟨1, 6, 5/2⟩ 4 = ⟨2, 6, 5/2⟩ ∧
    super_memo_2 ⟨7, 20, 5/2⟩ 2 = ⟨1, 1, 5/2⟩ :=
  ⟨(scheduler_update_transition_table 0 0 (5/2) 4 (by norm_num) (by norm_num)).1
      (Or.inr rfl),
   (scheduler_update_transition_table 1 6 (5/2) 4 (by norm_num) (by norm_num)).2.1
      (by norm_num) rfl,
   (scheduler_update_transition_table 7 20 (5/2) 2 (by norm_num) (by norm_num)).1
      (Or.inl (by norm_num))⟩

/-- C5: the ease factor never drops below 1.3: a single update from an ease
factor ≥ 1.3 with any quality in [0, 5] stays ≥ 1.3, and a fold over an
arbitrarily long sequence of low-quality ratings (q < 3) stays ≥ 1.3. -/
theorem ease_factor_floor_invariant (item : SuperMemoItem) (h : 1.3 ≤ item.e_factor) :
    (∀ q : ℚ, 0 ≤ q → q ≤ 5 → 1.3 ≤ (super_memo_2 item q).e_factor) ∧
    (∀ qs : List ℚ, (∀ q ∈ qs, 0 ≤ q ∧ q < 3) →
      1.3 ≤ (qs.foldl super_memo_2 item).e_factor) :=
  ⟨fun q _ _ => sm2_e_factor_floor item q h,
   fun qs _ => sm2_foldl_e_factor_floor qs item h⟩

/-- Witness for `ease_factor_floor_invariant`: ten lapses in a row from
(5, 10, 1.3) keep the ease factor at ≥ 1.3. -/
theorem ease_factor_floor_invariant_eval :
    1.3 ≤ (((List.replicate 10 (0 : ℚ)).foldl super_memo_2 ⟨5, 10, 1.3⟩)).e_factor :=
  (ease_factor_floor_invariant ⟨5, 10, 1.3⟩ le_rfl).2 (List.replicate 10 0)
    (fun q hq => by rcases List.eq_of_mem_replicate hq with rfl; norm_num)

/-- C6: once repetition is ≥ 2 and quality stays ≥ 3, the duration produced
by a `super_memo_2` step never shrinks, and grows strictly whenever the
incoming duration is at least 1. -/
theorem duration_monotone_growth (r d : ℕ) (e q : ℚ) (hr : 2 ≤ r) (hq : 3 ≤ q) :
    d ≤ (super_memo_2 ⟨r, d, e⟩ q).duration ∧
    (1 ≤ d → d < (super_memo_2 ⟨r, d, e⟩ q).duration) := by
  obtain ⟨k, rfl⟩ : ∃ k, r = k + 2 := ⟨r - 2, by omega⟩
  have hnq : ¬ q < 3 := not_lt.mpr hq
  simp only [super_memo_2, hnq, if_false]
  set eNew : ℚ := max (e + (0.1 - (5 - q) * (0.08 + (5 - q) * 0.02))) 1.3 with heNew
  have h13 : (1.3 : ℚ) ≤ eNew := le_max_right _ _
  have hd0 : (0 : ℚ) ≤ (d : ℚ) := by positivity
  constructor
  · have hmul : (d : ℚ) ≤ (d : ℚ) * eNew := by nlinarith
    have hceil : (d : ℤ) ≤ ⌈(d : ℚ) * eNew⌉ := by
      calc (d : ℤ) = ⌈((d : ℕ) : ℚ)⌉ := by simp
      _ ≤ ⌈(d : ℚ) * eNew⌉ := Int.ceil_le_ceil hmul
    omega
  · intro hd1
    have hd1q : (1 : ℚ) ≤ (d : ℚ) := by exact_mod_cast hd1
    have hmul : (d : ℚ) < (d : ℚ) * eNew := by nlinarith
    have hceil : (d : ℤ) < ⌈(d : ℚ) * eNew⌉ := by
      rw [Int.lt_ceil]
      exact_mod_cast hmul
    omega

/-- Witness for `duration_monotone_growth`: the spec's vector (2, 6, 2.5)
with q = 5 grows the duration strictly beyond 6. -/
theorem duration_monotone_growth_eval :
    6 < (super_memo_2 ⟨2, 6, 5/2⟩ 5).duration :=
  (duration_monotone_growth 2 6 (5/2) 5 (by norm_num) (by norm_num)).2 (by norm_num)

/-- C7: splitting `「猫が。」好きです。` emits exactly one sentence — the whole
string: the terminator inside the quotation pair produces no boundary, the
final one at depth zero does. -/
theorem quoted_terminator_no_split :
    iterate_sentences ("「猫が。」好きです。".toList) = ["「猫が。」好きです。".toList] := by
  decide

/-- C9: recording a review for a word text that is not in the store reports
the not-found condition (the `false` flag, the printed-error path of the
source, which does not panic) and leaves the store completely unchanged. -/
theorem review_word_not_found_no_write (st : Store) (word : String) (q : ℚ) (now : ℤ)
    (h : ∀ r ∈ st.words, r.text ≠ word) :
    review_word st word q now = (st, false) := by
  have hnone : findWordByText st word = none := by
    rw [findWordByText, List.find?_eq_none]
    intro x hx
    simpa using h x hx
  rw [review_word, hnone]

/-- Witness for `review_word_not_found_no_write`: reviewing `犬` against a
store holding only `猫` changes nothing. -/
theorem review_word_not_found_no_write_eval :
    review_word ⟨[], [⟨1, "猫", 1, 7, false, none, 0, 0, 0⟩], [], 2, 2⟩ "犬" 3 0 =
      (⟨[], [⟨1, "猫", 1, 7, false, none, 0, 0, 0⟩], [], 2, 2⟩, false) :=
  review_word_not_found_no_write _ "犬" 3 0 (by
    intro r hr
    simp only [List.mem_singleton] at hr
    subst hr
    decide)

/-- The word-upsert loop body never touches the `sentences` table. -/
theorem addWordAndLink_sentences (freq : String → ℤ) (st : Store) (sid : ℤ) (w : String) :
    (addWordAndLink freq st sid w).sentences = st.sentences := by
  cases hw : findWordByText st w <;> simp [addWordAndLink, hw]

/-- Folding the word-upsert loop never touches the `sentences` table. -/
theorem foldl_addWordAndLink_sentences (freq : String → ℤ) (sid : ℤ) :
    ∀ (ws : List String) (st : Store),
      ((ws.foldl (fun acc w => addWordAndLink freq acc sid w) st).sentences) = st.sentences := by
  intro ws
  induction ws with
  | nil => intro st; rfl
  | cons w ws ih =>
    intro st
    rw [List.foldl_cons, ih, addWordAndLink_sentences]

/-- After `add_sentence`, a row with the ingested text is present. -/
theorem add_sentence_text_mem (freq : String → ℤ) (st : Store) (sentence : String)
    (words : List String) :
    (add_sentence freq st sentence words).sentences.any (fun r => r.text = sentence) = true := by
  rw [add_sentence]
  by_cases h : st.sentences.any (fun r => r.text = sentence) = true
  · simpa [h] using h
  · rw [if_neg h, foldl_addWordAndLink_sentences]
    simp

/-- C4: ingestion is idempotent on sentence text: if the text is already
stored, `add_sentence` is the identity on the whole store (so no word count
is incremented and no membership edge is added); re-ingesting right after a
first ingestion is a no-op whatever tokens the second run sees; and
uniqueness of sentence texts is preserved. -/
theorem add_sentence_idempotent (freq : String → ℤ) (st : Store) (sentence : String)
    (toks toks2 : List String) :
    (st.sentences.any (fun r => r.text = sentence) = true →
      add_sentence freq st sentence toks = st) ∧
    (add_sentence freq (add_sentence freq st sentence toks) sentence toks2 =
      add_sentence freq st sentence toks) ∧
    ((st.sentences.map (fun r => r.text)).Nodup →
      ((add_sentence freq st sentence toks).sentences.map (fun r => r.text)).Nodup) := by
  refine ⟨fun h => by rw [add_sentence, if_pos h], ?_, ?_⟩
  · rw [add_sentence, if_pos (add_sentence_text_mem freq st sentence toks)]
  · intro hnd
    rw [add_sentence]
    by_cases h : st.sentences.any (fun r => r.text = sentence) = true
    · simpa [h] using hnd
    · rw [if_neg h, foldl_addWordAndLink_sentences]
      simp only [List.map_append, List.map_cons, List.map_nil]
      rw [List.nodup_append]
      refine ⟨hnd, List.nodup_singleton _, ?_⟩
      intro a ha hb
      simp only [List.mem_singleton] at hb
      simp only [List.mem_map] at ha
      obtain ⟨r, hr, hrt⟩ := ha
      simp only [List.any_eq_true, not_exists, not_and] at h
      exact h r hr (by simp [hrt, hb])

/-- Witness for `add_sentence_idempotent`: ingesting `犬だ` twice into the
empty store equals ingesting it once. -/
theorem add_sentence_idempotent_eval :
    add_sentence (fun _ => 0) (add_sentence (fun _ => 0) ⟨[], [], [], 1, 1⟩ "犬だ" ["犬", "だ"])
        "犬だ" ["犬", "だ"] =
      add_sentence (fun _ => 0) ⟨[], [], [], 1, 1⟩ "犬だ" ["犬", "だ"] :=
  (add_sentence_idempotent (fun _ => 0) ⟨[], [], [], 1, 1⟩ "犬だ" ["犬", "だ"] ["犬", "だ"]).2.1

/-- A word matching no inserted line is absent from the built frequency map. -/
theorem freq_foldl_no_match (ps : List (ℕ × String)) (m : String → Option ℤ) (w : String)
    (h : ∀ p ∈ ps, p.2 ≠ w) :
    ps.foldl (fun m p => fun x => if x = p.2 then some (p.1 : ℤ) else m x) m w = m w := by
  induction ps generalizing m with
  | nil => rfl
  | cons q ps ih =>
    rw [List.foldl_cons, ih _ (fun p hp => h p (List.mem_cons_of_mem q hp))]
    have hq : w ≠ q.2 := fun hqw => h q (List.mem_cons_self q ps) hqw.symm
    simp [hq]

/-- A word matching some inserted line gets one of its indices in the map. -/
theorem freq_foldl_mem (ps : List (ℕ × String)) (m : String → Option ℤ) (w : String)
    (h : ∃ p ∈ ps, p.2 = w) :
    ∃ i : ℕ, ps.foldl (fun m p => fun x => if x = p.2 then some (p.1 : ℤ) else m x) m w =
        some ((i : ℤ)) ∧ (i, w) ∈ ps := by
  induction ps generalizing m with
  | nil => simp at h
  | cons q ps ih =>
    by_cases hr : ∃ p ∈ ps, p.2 = w
    · obtain ⟨i, hi, hmem⟩ := ih _ hr
      exact ⟨i, hi, List.mem_cons_of_mem q hmem⟩
    · push_neg at hr
      obtain ⟨p, hp, hpw⟩ := h
      rcases List.mem_cons.mp hp with rfl | hp2
      · have hpe : (p.1, w) = p := by rw [← hpw]
        refine ⟨p.1, ?_, ?_⟩
        · rw [List.foldl_cons, freq_foldl_no_match ps _ w hr]
          simp [hpw]
        · exact hpe ▸ List.mem_cons_self p ps
      · exact absurd hpw (hr p hp2)

/-- If an index-word pair is inserted and every occurrence of the word in the
insertion sequence carries that same index, that index is what the built map
returns for the word. -/
theorem freq_foldl_unique (ps : List (ℕ × String)) (m : String → Option ℤ) (w : String)
    (i : ℕ) (hmem : (i, w) ∈ ps) (huniq : ∀ p ∈ ps, p.2 = w → p.1 = i) :
    ps.foldl (fun m p => fun x => if x = p.2 then some (p.1 : ℤ) else m x) m w =
      some ((i : ℤ)) := by
  induction ps generalizing m with
  | nil => simp at hmem
  | cons q ps ih =>
    by_cases hr : ∃ p ∈ ps, p.2 = w
    · obtain ⟨p, hp, hpw⟩ := hr
      have hpi : p = (i, w) := by
        have h1 := huniq p (List.mem_cons_of_mem q hp) hpw
        calc p = (p.1, p.2) := rfl
        _ = (i, w) := by rw [h1, hpw]
      rw [List.foldl_cons]
      exact ih _ (hpi ▸ hp) (fun p hp hpw => huniq p (List.mem_cons_of_mem q hp) hpw)
    · push_neg at hr
      rw [List.foldl_cons, freq_foldl_no_match ps _ w hr]
      rcases List.mem_cons.mp hmem with heq | h2
      · rw [← heq]
        simp
      · exact absurd rfl (hr _ h2)

/-- C8: the frequency oracle is a pure function of the word: lookups are
stable; on a duplicate-free list every listed word is ranked by its
zero-based line index; unlisted words map to the `i64::MAX` sentinel; and
whenever the list length fits in an `i64` (which the `usize as i64` index
cast in the source presupposes) every listed word's rank is strictly below
the sentinel. -/
theorem frequency_oracle_rank (lines : List String) :
    (∀ w, get_word_freq lines w = get_word_freq lines w) ∧
    (lines.Nodup → ∀ i (h : i < lines.length),
      get_word_freq lines (lines.get ⟨i, h⟩) = (i : ℤ)) ∧
    (∀ w, (∀ l ∈ lines, l ≠ w) → get_word_freq lines w = i64Max) ∧
    ((lines.length : ℤ) ≤ i64Max → ∀ w ∈ lines, get_word_freq lines w < i64Max) := by
  refine ⟨fun _ => rfl, ?_, ?_, ?_⟩
  · intro hnd i h
    have hmem : (i, lines.get ⟨i, h⟩) ∈ lines.enum := by
      rw [List.mem_enum_iff_getElem?]
      simp
    have huniq : ∀ p ∈ lines.enum, p.2 = lines.get ⟨i, h⟩ → p.1 = i := by
      intro p hp hpw
      have h1 := List.mem_enum_iff_getElem?.mp hp
      obtain ⟨hlt, hval⟩ := List.getElem?_eq_some.mp h1
      have : lines[p.1] = lines[i] := by
        rw [hval, hpw]
        simp [List.get_eq_getElem]
      exact (hnd.getElem_inj_iff).mp this
    rw [get_word_freq, build_word_freq, freq_foldl_unique _ _ _ i hmem huniq]
  · intro w hw
    have hnm : ∀ p ∈ lines.enum, p.2 ≠ w := by
      intro p hp
      have h1 := List.mem_enum_iff_getElem?.mp hp
      obtain ⟨hlt, hval⟩ := List.getElem?_eq_some.mp h1
      exact hval ▸ hw _ (List.getElem_mem hlt)
    rw [get_word_freq, build_word_freq, freq_foldl_no_match _ _ _ hnm]
  · intro hlen w hw
    obtain ⟨i, hi, hival⟩ := List.mem_iff_getElem.mp hw
    have hmem : ∃ p ∈ lines.enum, p.2 = w := by
      refine ⟨(i, w), ?_, rfl⟩
      rw [List.mem_enum_iff_getElem?]
      simp [hival.symm ▸ List.getElem?_eq_getElem hi, hival]
    obtain ⟨j, hj, hjmem⟩ := freq_foldl_mem lines.enum _ w hmem
    have hjlt : j < lines.length := by
      have h1 := List.mem_enum_iff_getElem?.mp hjmem
      exact (List.getElem?_eq_some.mp h1).1
    rw [get_word_freq, build_word_freq, hj]
    show (j : ℤ) < i64Max
    have : (j : ℤ) < (lines.length : ℤ) := by exact_mod_cast hjlt
    omega

/-- Witness for `frequency_oracle_rank`: on the list [の, に, 犬] the word 犬
is ranked 2 and the unlisted word 猫 gets the sentinel. -/
theorem frequency_oracle_rank_eval :
    get_word_freq ["の", "に", "犬"] "犬" = 2 ∧
    get_word_freq ["の", "に", "犬"] "猫" = i64Max :=
  ⟨(frequency_oracle_rank ["の", "に", "犬"]).2.1 (by decide) 2 (by norm_num),
   (frequency_oracle_rank ["の", "に", "犬"]).2.2.1 "猫" (by decide)⟩

/-- A trimmed string trims to itself (`trim` is `rdropWhile` after
`dropWhile`, both idempotent, and stripping the tail of a left-stripped list
cannot expose leading whitespace). -/
theorem trim_idempotent (l : List Char) : trim (trim l) = trim l := by
  set a := l.dropWhile isRustWhitespace with ha
  have haa : a.dropWhile isRustWhitespace = a := by
    rw [ha]
    exact List.dropWhile_idempotent _ _
  obtain ⟨t, ht⟩ := List.rdropWhile_prefix isRustWhitespace a
  set b := List.rdropWhile isRustWhitespace a with hb
  have hd : b.dropWhile isRustWhitespace = b := by
    rw [List.dropWhile_eq_self_iff]
    intro h0
    have ha0 : 0 < a.length := by
      rw [← ht, List.length_append]
      omega
    have hsome : a[0]? = some (b.get ⟨0, h0⟩) := by
      rw [← ht]
      simp only [List.getElem?_append, h0, if_pos]
      simp [List.getElem?_eq_getElem h0]
    have hsome2 : a[0]? = some (a.get ⟨0, ha0⟩) := by
      simp
    have hba : b.get ⟨0, h0⟩ = a.get ⟨0, ha0⟩ :=
      Option.some.inj (hsome.symm.trans hsome2)
    rw [hba]
    exact List.dropWhile_eq_self_iff.mp haa ha0
  calc trim (trim l)
      = List.rdropWhile isRustWhitespace (b.dropWhile isRustWhitespace) := rfl
  _ = List.rdropWhile isRustWhitespace b := by rw [hd]
  _ = List.rdropWhile isRustWhitespace a := by
      rw [hb]
      exact List.rdropWhile_idempotent _ _
  _ = trim l := rfl

/-- Case analysis of one split step's effect on the emitted output: either
nothing is emitted, or the character is a terminator at depth zero outside
any quote handling and the trimmed nonempty current string is appended. -/
theorem splitStep_out_cases (st : SplitState) (c : Char) :
    (splitStep st c).out = st.out ∨
    ((splitStep st c).out = st.out ++ [trim (st.cur ++ [c])] ∧
      (trim (st.cur ++ [c])).isEmpty = false ∧
      st.depth = 0 ∧ terminators.contains c = true) := by
  rw [splitStep]
  by_cases h1 : open_quotes.contains c = true
  · rw [if_pos h1]
    exact Or.inl rfl
  · rw [if_neg h1]
    by_cases h2 : close_quotes.contains c = true
    · rw [if_pos h2]
      exact Or.inl rfl
    · rw [if_neg h2]
      by_cases h3 : st.depth = 0 ∧ terminators.contains c = true
      · rw [if_pos h3]
        by_cases h4 : (trim (st.cur ++ [c])).isEmpty = true
        · left
          show (if (trim (st.cur ++ [c])).isEmpty = true then st.out
            else st.out ++ [trim (st.cur ++ [c])]) = st.out
          rw [if_pos h4]
        · right
          have h4f : (trim (st.cur ++ [c])).isEmpty = false := by
            simpa using h4
          refine ⟨?_, h4f, h3.1, h3.2⟩
          show (if (trim (st.cur ++ [c])).isEmpty = true then st.out
            else st.out ++ [trim (st.cur ++ [c])]) = st.out ++ [trim (st.cur ++ [c])]
          rw [if_neg h4]
      · rw [if_neg h3]
        exact Or.inl rfl

/-- One split step keeps every emitted sentence trimmed and nonempty. -/
theorem splitStep_out_trimmed (st : SplitState) (c : Char)
    (h : ∀ s ∈ st.out, trim s = s ∧ s ≠ []) :
    ∀ s ∈ (splitStep st c).out, trim s = s ∧ s ≠ [] := by
  intro s hs
  rcases splitStep_out_cases st c with ho | ⟨ho, hne, _, _⟩
  · rw [ho] at hs
    exact h s hs
  · rw [ho] at hs
    rcases List.mem_append.mp hs with hold | hnew
    · exact h s hold
    · rw [List.mem_singleton] at hnew
      subst hnew
      exact ⟨trim_idempotent _, by simpa [List.isEmpty_iff] using hne⟩

/-- Folding the splitter only ever adds trimmed nonempty sentences. -/
theorem foldl_splitStep_out_trimmed (text : List Char) :
    ∀ st : SplitState, (∀ s ∈ st.out, trim s = s ∧ s ≠ []) →
      ∀ s ∈ (text.foldl splitStep st).out, trim s = s ∧ s ≠ [] := by
  induction text with
  | nil => intro st h; exact h
  | cons c text ih =>
    intro st h
    exact ih (splitStep st c) (splitStep_out_trimmed st c h)

/-- A character that is not a terminator never emits a sentence. -/
theorem splitStep_out_no_terminator (st : SplitState) (c : Char)
    (h : terminators.contains c = false) : (splitStep st c).out = st.out := by
  rcases splitStep_out_cases st c with ho | ⟨_, _, _, hterm⟩
  · exact ho
  · rw [h] at hterm
    exact absurd hterm (by simp)

/-- A terminator-free stretch of text emits nothing. -/
theorem foldl_out_no_terminator (t : List Char) :
    ∀ st : SplitState, (∀ c ∈ t, terminators.contains c = false) →
      (t.foldl splitStep st).out = st.out := by
  induction t with
  | nil => intro st _; rfl
  | cons c t ih =>
    intro st h
    rw [List.foldl_cons, ih _ (fun x hx => h x (List.mem_cons_of_mem c hx)),
      splitStep_out_no_terminator st c (h c (List.mem_cons_self c t))]

/-- While the quotation depth is positive and no closing quote arrives, a
split step emits nothing and the depth stays positive. -/
theorem splitStep_pos_depth (st : SplitState) (c : Char) (h : 0 < st.depth)
    (hc : close_quotes.contains c = false) :
    (splitStep st c).out = st.out ∧ 0 < (splitStep st c).depth := by
  have hout : (splitStep st c).out = st.out := by
    rcases splitStep_out_cases st c with ho | ⟨_, _, hdep, _⟩
    · exact ho
    · omega
  refine ⟨hout, ?_⟩
  rw [splitStep]
  by_cases h1 : open_quotes.contains c = true
  · rw [if_pos h1]
    show 0 < st.depth + 1
    omega
  · rw [if_neg h1]
    by_cases h2 : close_quotes.contains c = true
    · rw [hc] at h2
      exact absurd h2 (by simp)
    · rw [if_neg h2]
      by_cases h3 : st.depth = 0 ∧ terminators.contains c = true
      · omega
      · rw [if_neg h3]
        exact h

/-- Inside a quotation that never closes, the splitter emits nothing more. -/
theorem foldl_pos_depth (t : List Char) :
    ∀ st : SplitState, 0 < st.depth → (∀ c ∈ t, close_quotes.contains c = false) →
      (t.foldl splitStep st).out = st.out := by
  induction t with
  | nil => intro st _ _; rfl
  | cons c t ih =>
    intro st h hc
    obtain ⟨ho, hd⟩ := splitStep_pos_depth st c h (hc c (List.mem_cons_self c t))
    rw [List.foldl_cons, ih _ hd (fun x hx => hc x (List.mem_cons_of_mem c hx)), ho]

/-- A split step that does not consume a terminator at depth zero emits no
sentence. -/
theorem splitStep_out_not_fired (st : SplitState) (c : Char)
    (h : ¬(st.depth = 0 ∧ terminators.contains c = true)) :
    (splitStep st c).out = st.out := by
  rcases splitStep_out_cases st c with ho | ⟨_, _, hd, ht⟩
  · exact ho
  · exact absurd ⟨hd, ht⟩ h

/-- A stretch of text in which no character is a terminator consumed at
quotation depth zero emits nothing, whatever mixture of terminators inside
quotations, opening and closing quotes it contains. -/
theorem foldl_out_no_depth_zero_terminator (t : List Char) :
    ∀ st : SplitState,
      (∀ i (h : i < t.length),
        ¬(((t.take i).foldl splitStep st).depth = 0 ∧
          terminators.contains t[i] = true)) →
      (t.foldl splitStep st).out = st.out := by
  induction t with
  | nil => intro st _; rfl
  | cons c t ih =>
    intro st h
    have h0 : ¬(st.depth = 0 ∧ terminators.contains c = true) := by
      simpa using h 0 (by simp)
    rw [List.foldl_cons, ih (splitStep st c) ?_, splitStep_out_not_fired st c h0]
    intro i hi
    have := h (i + 1) (by simpa using Nat.succ_lt_succ hi)
    simpa using this

/-- C10: the splitter emits only strings that are nonempty after trimming,
and any text following the last terminator seen at quotation depth zero is
silently discarded: a suffix none of whose characters is a depth-zero
terminator emits nothing — in particular a terminator-free suffix (hence a
whole input with no terminator), and any suffix free of closing quotes once
the prefix has left an open quotation pending. -/
theorem splitter_discards_trailing_text :
    (∀ text s, s ∈ iterate_sentences text → trim s ≠ []) ∧
    (∀ s t, (∀ i (h : i < t.length),
        ¬(((s ++ t.take i).foldl splitStep ⟨0, [], []⟩).depth = 0 ∧
          terminators.contains t[i] = true)) →
      iterate_sentences (s ++ t) = iterate_sentences s) ∧
    (∀ s t, (∀ c ∈ t, terminators.contains c = false) →
      iterate_sentences (s ++ t) = iterate_sentences s) ∧
    (∀ s t, 0 < (s.foldl splitStep ⟨0, [], []⟩).depth →
      (∀ c ∈ t, close_quotes.contains c = false) →
      iterate_sentences (s ++ t) = iterate_sentences s) := by
  refine ⟨?_, ?_, ?_, ?_⟩
  · intro text s hs
    obtain ⟨h1, h2⟩ :=
      foldl_splitStep_out_trimmed text ⟨0, [], []⟩ (by intro s hs; simp at hs) s hs
    rw [h1]
    exact h2
  · intro s t h
    rw [iterate_sentences, List.foldl_append,
      foldl_out_no_depth_zero_terminator t (s.foldl splitStep ⟨0, [], []⟩) ?_]
    · rfl
    · intro i hi
      have := h i hi
      rwa [List.foldl_append] at this
  · intro s t ht
    rw [iterate_sentences, List.foldl_append, foldl_out_no_terminator t _ ht]
    rfl
  · intro s t hdep hc
    rw [iterate_sentences, List.foldl_append, foldl_pos_depth t _ hdep hc]
    rfl

/-- Witness for `splitter_discards_trailing_text`: after `あ。`, the suffix
`「犬。」猫` — a closed quotation holding a terminator, then stray text, so
nothing in it is a depth-zero terminator — is dropped whole; so are a
terminator-free tail and `犬が。` inside a never-closed quotation. -/
theorem splitter_discards_trailing_text_eval :
    iterate_sentences ("あ。".toList ++ "「犬。」猫".toList) =
      iterate_sentences ("あ。".toList) ∧
    iterate_sentences ("あ。".toList ++ "好き".toList) = iterate_sentences ("あ。".toList) ∧
    iterate_sentences ("あ。「".toList ++ "犬が。".toList) =
      iterate_sentences ("あ。「".toList) :=
  ⟨splitter_discards_trailing_text.2.1 _ _ (by decide),
   splitter_discards_trailing_text.2.2.1 _ _ (by decide),
   splitter_discards_trailing_text.2.2.2 _ _ (by decide) (by decide)⟩

/-- Accumulator invariant of the first-minimum fold: starting from a stored
candidate, the fold returns a minimal element, and a strictly better one only
if it appears in the remaining list with every earlier element strictly
worse. -/
theorem selectMinBy_foldl_spec {α : Type} (key : α → ℤ) :
    ∀ (t : List α) (b : α),
      ∃ m, t.foldl (fun acc x =>
          match acc with
          | none => some x
          | some b => if key x < key b then some x else acc) (some b) = some m ∧
        key m ≤ key b ∧ (∀ y ∈ t, key m ≤ key y) ∧
        (m = b ∨ (key m < key b ∧ ∃ pre post, t = pre ++ m :: post ∧
          ∀ y ∈ pre, key m < key y)) := by
  intro t
  induction t with
  | nil =>
    intro b
    exact ⟨b, rfl, le_rfl, by simp, Or.inl rfl⟩
  | cons x t ih =>
    intro b
    rw [List.foldl_cons]
    by_cases hx : key x < key b
    · obtain ⟨m, hm, hmb, hmt, hpos⟩ := ih x
      have hfold : List.foldl (fun acc x =>
          match acc with
          | none => some x
          | some b => if key x < key b then some x else acc)
            (if key x < key b then some x else some b) t = some m := by
        rw [if_pos hx]
        exact hm
      refine ⟨m, hfold, le_of_lt (lt_of_le_of_lt hmb hx), ?_, ?_⟩
      · intro y hy
        rcases List.mem_cons.mp hy with rfl | hy2
        · exact hmb
        · exact hmt y hy2
      · rcases hpos with rfl | ⟨hlt, pre, post, rfl, hpre⟩
        · exact Or.inr ⟨hx, [], t, rfl, by simp⟩
        · refine Or.inr ⟨lt_trans hlt hx, x :: pre, post, rfl, ?_⟩
          intro y hy
          rcases List.mem_cons.mp hy with rfl | hy2
          · exact hlt
          · exact hpre y hy2
    · obtain ⟨m, hm, hmb, hmt, hpos⟩ := ih b
      have hfold : List.foldl (fun acc x =>
          match acc with
          | none => some x
          | some b => if key x < key b then some x else acc)
            (if key x < key b then some x else some b) t = some m := by
        rw [if_neg hx]
        exact hm
      refine ⟨m, hfold, hmb, ?_, ?_⟩
      · intro y hy
        rcases List.mem_cons.mp hy with rfl | hy2
        · exact le_trans hmb (not_lt.mp hx)
        · exact hmt y hy2
      · rcases hpos with rfl | ⟨hlt, pre, post, rfl, hpre⟩
        · exact Or.inl rfl
        · refine Or.inr ⟨hlt, x :: pre, post, rfl, ?_⟩
          intro y hy
          rcases List.mem_cons.mp hy with rfl | hy2
          · exact lt_of_lt_of_le hlt (not_lt.mp hx)
          · exact hpre y hy2

/-- On a nonempty list `selectMinBy` returns the first element attaining the
minimal key. -/
theorem selectMinBy_spec {α : Type} (key : α → ℤ) (l : List α) (hne : l ≠ []) :
    ∃ m pre post, selectMinBy key l = some m ∧ l = pre ++ m :: post ∧
      (∀ y ∈ pre, key m < key y) ∧ (∀ y ∈ l, key m ≤ key y) := by
  cases l with
  | nil => exact absurd rfl hne
  | cons x t =>
    obtain ⟨m, hm, hmb, hmt, hpos⟩ := selectMinBy_foldl_spec key t x
    have hsel : selectMinBy key (x :: t) = some m := by
      rw [selectMinBy, List.foldl_cons]
      exact hm
    have hmin : ∀ y ∈ x :: t, key m ≤ key y := by
      intro y hy
      rcases List.mem_cons.mp hy with rfl | hy2
      · exact hmb
      · exact hmt y hy2
    rcases hpos with rfl | ⟨hlt, pre, post, rfl, hpre⟩
    · exact ⟨m, [], t, hsel, rfl, by simp, hmin⟩
    · refine ⟨m, x :: pre, post, hsel, rfl, ?_, hmin⟩
      intro y hy
      rcases List.mem_cons.mp hy with rfl | hy2
      · exact hlt
      · exact hpre y hy2

/-- An empty candidate list yields no pick. -/
theorem selectMinBy_nil {α : Type} (key : α → ℤ) : selectMinBy key ([] : List α) = none :=
  rfl

/-- C3: the review picker returns the earliest-due reviewed word when one is
overdue (so an overdue word always beats every unreviewed word, whatever its
frequency rank); otherwise the unreviewed word of smallest frequency rank;
otherwise nothing. -/
theorem review_picker_priority (st : Store) (now : ℤ) :
    ((∃ w ∈ st.words, w.reviewed = true ∧ ∃ t, w.next_review_at = some t ∧ t < now) →
      ∃ w, w ∈ st.words ∧ w.reviewed = true ∧ (∃ t, w.next_review_at = some t ∧ t < now) ∧
        get_word_to_review st now = some w.text ∧
        ∀ w' ∈ st.words, w'.reviewed = true →
          ∀ t t', w.next_review_at = some t → w'.next_review_at = some t' → t' < now →
            t ≤ t') ∧
    ((¬ ∃ w ∈ st.words, w.reviewed = true ∧ ∃ t, w.next_review_at = some t ∧ t < now) →
      ((∃ w ∈ st.words, w.reviewed = false) →
        ∃ w, w ∈ st.words ∧ w.reviewed = false ∧ get_word_to_review st now = some w.text ∧
          ∀ w' ∈ st.words, w'.reviewed = false → w.frequency ≤ w'.frequency) ∧
      ((¬ ∃ w ∈ st.words, w.reviewed = false) → get_word_to_review st now = none)) := by
  have hPB : ∀ w : WordRow,
      (w.reviewed && (match w.next_review_at with
        | some t => decide (t < now) | none => false)) = true ↔
      (w.reviewed = true ∧ ∃ t, w.next_review_at = some t ∧ t < now) := by
    intro w
    cases hnr : w.next_review_at with
    | none => simp [hnr]
    | some t0 => simp [hnr]
  constructor
  · intro h
    obtain ⟨w0, hw0, hP0⟩ := h
    have hmem : w0 ∈ st.words.filter (fun w => w.reviewed && (match w.next_review_at with
        | some t => decide (t < now) | none => false)) :=
      List.mem_filter.mpr ⟨hw0, (hPB w0).mpr hP0⟩
    obtain ⟨m, pre, post, hsel, hdec, hpre, hmin⟩ :=
      selectMinBy_spec (fun w => w.next_review_at.getD 0) _ (List.ne_nil_of_mem hmem)
    have hmdue := List.mem_filter.mp (hdec ▸ List.mem_append_right pre (List.mem_cons_self m post))
    obtain ⟨hmr, tm, hmt, hmlt⟩ := (hPB m).mp hmdue.2
    refine ⟨m, hmdue.1, hmr, ⟨tm, hmt, hmlt⟩, ?_, ?_⟩
    · rw [get_word_to_review]
      rw [hsel]
    · intro w' hw' hwr t t' hmt2 hwt2 hlt2
      have hw'due : w' ∈ st.words.filter (fun w => w.reviewed && (match w.next_review_at with
          | some t => decide (t < now) | none => false)) :=
        List.mem_filter.mpr ⟨hw', (hPB w').mpr ⟨hwr, t', hwt2, hlt2⟩⟩
      have := hmin w' hw'due
      rw [hmt2] at hmt
      have htm : t = tm := Option.some.inj hmt
      simp only [hmt2, hwt2, Option.getD_some] at this
      omega
  · intro hno
    have hdue_nil : st.words.filter (fun w => w.reviewed && (match w.next_review_at with
        | some t => decide (t < now) | none => false)) = [] := by
      rcases hd : st.words.filter (fun w => w.reviewed && (match w.next_review_at with
          | some t => decide (t < now) | none => false)) with _ | ⟨w, rest⟩
      · exact hd
      · exfalso
        have hm := List.mem_filter.mp (hd ▸ List.mem_cons_self w rest)
        exact hno ⟨w, hm.1, (hPB w).mp hm.2⟩
    have hnone : selectMinBy (fun w => w.next_review_at.getD 0)
        (st.words.filter (fun w => w.reviewed && (match w.next_review_at with
          | some t => decide (t < now) | none => false))) = none := by
      rw [hdue_nil]
      rfl
    constructor
    · intro hnew
      obtain ⟨w0, hw0, hr0⟩ := hnew
      have hmem : w0 ∈ st.words.filter (fun w => w.reviewed = false) :=
        List.mem_filter.mpr ⟨hw0, by simp [hr0]⟩
      obtain ⟨m, pre, post, hsel, hdec, hpre, hmin⟩ :=
        selectMinBy_spec (fun w => w.frequency) _ (List.ne_nil_of_mem hmem)
      have hm := List.mem_filter.mp (hdec ▸ List.mem_append_right pre (List.mem_cons_self m post))
      refine ⟨m, hm.1, by simpa using hm.2, ?_, ?_⟩
      · rw [get_word_to_review, hnone, hsel]
      · intro w' hw' hwr
        exact hmin w' (List.mem_filter.mpr ⟨hw', by simp [hwr]⟩)
    · intro hnof
      have hnew_nil : st.words.filter (fun w => w.reviewed = false) = [] := by
        rcases hd : st.words.filter (fun w => w.reviewed = false) with _ | ⟨w, rest⟩
        · exact hd
        · exfalso
          have hm := List.mem_filter.mp (hd ▸ List.mem_cons_self w rest)
          exact hnof ⟨w, hm.1, by simpa using hm.2⟩
      rw [get_word_to_review, hnone, hnew_nil]
      rfl

/-- Witness for `review_picker_priority`: an overdue reviewed word of huge
frequency rank 99999 beats the unreviewed rank-0 word. -/
theorem review_picker_priority_eval :
    ∃ w, w ∈ (Store.mk [] [⟨1, "珍", 1, 99999, true, some 5, 3, 2, 2⟩,
        ⟨2, "の", 1, 0, false, none, 0, 0, 0⟩] [] 1 3).words ∧ w.reviewed = true ∧
      (∃ t, w.next_review_at = some t ∧ t < 10) ∧
      get_word_to_review (Store.mk [] [⟨1, "珍", 1, 99999, true, some 5, 3, 2, 2⟩,
        ⟨2, "の", 1, 0, false, none, 0, 0, 0⟩] [] 1 3) 10 = some w.text ∧
      ∀ w' ∈ (Store.mk [] [⟨1, "珍", 1, 99999, true, some 5, 3, 2, 2⟩,
        ⟨2, "の", 1, 0, false, none, 0, 0, 0⟩] [] 1 3).words, w'.reviewed = true →
        ∀ t t', w.next_review_at = some t → w'.next_review_at = some t' → t' < 10 →
          t ≤ t' :=
  (review_picker_priority _ 10).1
    ⟨⟨1, "珍", 1, 99999, true, some 5, 3, 2, 2⟩, List.mem_cons_self _ _, rfl,
      ⟨5, rfl, by norm_num⟩⟩

/-- The fittest-sentence fold of the source is the first-minimum selection
paired with its cost. -/
theorem pickFittest_eq_selectMinBy (cost : ℤ → ℤ) (l : List ℤ) :
    pickFittest cost l = (selectMinBy cost l).map (fun s => (s, cost s)) := by
  have aux : ∀ (t : List ℤ) (b : ℤ),
      t.foldl (fun fittest sentence_id =>
        let total := cost sentence_id
        match fittest with
        | some (_, c) => if total < c then some (sentence_id, total) else fittest
        | none => some (sentence_id, total)) (some (b, cost b)) =
      (t.foldl (fun acc x =>
        match acc with
        | none => some x
        | some b => if cost x < cost b then some x else acc) (some b)).map
          (fun s => (s, cost s)) := by
    intro t
    induction t with
    | nil => intro b; rfl
    | cons x t ih =>
      intro b
      rw [List.foldl_cons, List.foldl_cons]
      show List.foldl _ (if cost x < cost b then some (x, cost x) else some (b, cost b)) t =
        (List.foldl _ (if cost x < cost b then some x else some b) t).map _
      by_cases hx : cost x < cost b
      · rw [if_pos hx, if_pos hx]
        exact ih x
      · rw [if_neg hx, if_neg hx]
        exact ih b
  cases l with
  | nil => rfl
  | cons x t =>
    rw [pickFittest, selectMinBy, List.foldl_cons, List.foldl_cons]
    show List.foldl _ (some (x, cost x)) t = (List.foldl _ (some x) t).map _
    convert aux t x using 4
    rename_i o
    funext z
    cases o <;> rfl

/-- Unfolding of `get_sentence_to_review` once the reviewed word's row is
known. -/
theorem get_sentence_to_review_eq (st : Store) (word : String) (r : WordRow)
    (hfind : findWordByText st word = some r) :
    get_sentence_to_review st word =
      match pickFittest (sentenceCost st r.id) (sentenceIdsForWord st r.id) with
      | some (sid, _) => (st.sentences.find? (fun s => s.id = sid)).map (fun s => s.text)
      | none => none := by
  rw [get_sentence_to_review, hfind]

/-- C2: for a word present in the store (with the foreign-key invariant that
membership edges point at existing sentence rows), the selector returns the
text of a sentence linked to the word whose cost — the summed stored
frequency ranks of the other words joined to that sentence — is minimal,
the first such sentence in membership order on ties; it returns nothing
exactly when no sentence is linked to the word. -/
theorem sentence_selector_min_cost (st : Store) (word : String) (r : WordRow)
    (hfind : findWordByText st word = some r)
    (hFK : ∀ e ∈ st.word_sentence, ∃ srow ∈ st.sentences, srow.id = e.2) :
    (get_sentence_to_review st word = none ↔ sentenceIdsForWord st r.id = []) ∧
    (sentenceIdsForWord st r.id ≠ [] →
      ∃ srow pre post, get_sentence_to_review st word = some srow.text ∧
        srow ∈ st.sentences ∧
        sentenceIdsForWord st r.id = pre ++ srow.id :: post ∧
        (∀ sid ∈ pre, sentenceCost st r.id srow.id < sentenceCost st r.id sid) ∧
        (∀ sid ∈ sentenceIdsForWord st r.id,
          sentenceCost st r.id srow.id ≤ sentenceCost st r.id sid)) := by
  by_cases hne : sentenceIdsForWord st r.id = []
  · have hg : get_sentence_to_review st word = none := by
      rw [get_sentence_to_review_eq st word r hfind, hne]
      rfl
    exact ⟨⟨fun _ => hne, fun _ => hg⟩, fun h => absurd hne h⟩
  · obtain ⟨m, pre, post, hsel, hdec, hpre, hmin⟩ :=
      selectMinBy_spec (sentenceCost st r.id) _ hne
    have hpick : pickFittest (sentenceCost st r.id) (sentenceIdsForWord st r.id) =
        some (m, sentenceCost st r.id m) := by
      rw [pickFittest_eq_selectMinBy, hsel]
      rfl
    have hmem : m ∈ sentenceIdsForWord st r.id := by
      rw [hdec]
      exact List.mem_append_right pre (List.mem_cons_self m post)
    have hex : ∃ srow ∈ st.sentences, srow.id = m := by
      rw [sentenceIdsForWord] at hmem
      obtain ⟨e, he, heq⟩ := List.mem_map.mp hmem
      obtain ⟨srow, hs1, hs2⟩ := hFK e (List.mem_of_mem_filter he)
      exact ⟨srow, hs1, by rw [hs2, heq]⟩
    have hfindrow : (st.sentences.find? (fun s => s.id = m)).isSome := by
      rw [List.find?_isSome]
      obtain ⟨srow, hs1, hs2⟩ := hex
      exact ⟨srow, hs1, by simp [hs2]⟩
    obtain ⟨srow, hsrow⟩ := Option.isSome_iff_exists.mp hfindrow
    have hsid : srow.id = m := by simpa using List.find?_some hsrow
    have hsmem : srow ∈ st.sentences := List.mem_of_find?_eq_some hsrow
    have hg : get_sentence_to_review st word = some srow.text := by
      rw [get_sentence_to_review_eq st word r hfind, hpick]
      show (st.sentences.find? (fun s => s.id = m)).map (fun s => s.text) = some srow.text
      rw [hsrow]
      rfl
    constructor
    · constructor
      · intro hnone
        rw [hg] at hnone
        cases hnone
      · intro h
        exact absurd h hne
    · intro _
      refine ⟨srow, pre, post, hg, hsmem, ?_, ?_, ?_⟩
      · rw [hsid]
        exact hdec
      · intro sid hs
        rw [hsid]
        exact hpre sid hs
      · intro sid hs
        rw [hsid]
        exact hmin sid hs

/-- Concrete store exercising the sentence selector: 犬 appears in a
sentence costing 50 (via 走る) and one costing 3 (via 猫). -/
def demoSelectorStore : Store :=
  ⟨[⟨10, "犬が走る"⟩, ⟨11, "犬と猫"⟩],
   [⟨1, "犬", 2, 5, false, none, 0, 0, 0⟩, ⟨2, "走る", 1, 50, false, none, 0, 0, 0⟩,
    ⟨3, "猫", 1, 3, false, none, 0, 0, 0⟩],
   [(1, 10), (2, 10), (1, 11), (3, 11)], 12, 4⟩

/-- Witness for `sentence_selector_min_cost`: on `demoSelectorStore` the
selector picks a minimal-cost sentence containing 犬. -/
theorem sentence_selector_min_cost_eval :
    ∃ srow pre post,
      get_sentence_to_review demoSelectorStore "犬" = some srow.text ∧
      srow ∈ demoSelectorStore.sentences ∧
      sentenceIdsForWord demoSelectorStore 1 = pre ++ srow.id :: post ∧
      (∀ sid ∈ pre,
        sentenceCost demoSelectorStore 1 srow.id < sentenceCost demoSelectorStore 1 sid) ∧
      (∀ sid ∈ sentenceIdsForWord demoSelectorStore 1,
        sentenceCost demoSelectorStore 1 srow.id ≤ sentenceCost demoSelectorStore 1 sid) :=
  (sentence_selector_min_cost demoSelectorStore "犬"
    ⟨1, "犬", 2, 5, false, none, 0, 0, 0⟩ (by decide) (by decide)).2 (by decide)
